import Mathlib

/-!
# Verification of the ddstats aggregation engine

Shallow embedding of the ddstats in-process metrics aggregation engine
(`stats.go`) and proofs of its specified properties.

Modelling conventions:
* Go `float64` metric values are modelled as `ℚ`; every value appearing in the
  specified scenarios is a small integer, where `float64` arithmetic is exact.
* Go `nil` slices are modelled as `Option (List _) = none` where the code
  distinguishes `nil` from an empty slice (`combineTags`, `DDMetric.tags`);
  elsewhere (metric identity) `nil` behaves exactly like the empty list and is
  modelled as `[]`.
* Each worker's shard map `map[string]*metric` is modelled as a function
  `String → Option Metric`.
* The one state shared by the ingestion fast path — the bounded `jobs` channel
  plus the `dropped` counter — is modelled as an explicit `StatsQueue` record
  threaded through the ingestion operations.
-/

namespace DDStats

/-- Metric class, `client.Count` / `client.Rate` / `client.Gauge`. -/
inductive MetricClass where
  | count
  | rate
  | gauge
  deriving DecidableEq, Repr

/-- The `metric` record carried by a job and stored in a shard
(`name`, `class`, `value`, `tags` fields of `metric`). -/
structure Metric where
  name : String
  mclass : MetricClass
  value : ℚ
  tags : List String
  deriving DecidableEq, Repr

/-- `sort.Strings`: sorts a string slice ascending.  `List.insertionSort` is one
implementation of it; any sort of the same list produces this unique sorted
permutation. -/
def sortStrings (l : List String) : List String :=
  l.insertionSort (· ≤ ·)

/-- `metricKey(name, tags)`: sorts the tags and concatenates them after the
name (`fmt.Sprintf("%s%s", name, strings.Join(tags, ""))` with `""` joins). -/
def metricKey (name : String) (tags : List String) : String :=
  name ++ String.join (sortStrings tags)

/-- Modelled from the spec: the Metric Accumulator's class-specific update rule
(the `metric.update` method lives in a repository file not under `src/`; only
its caller `worker` is).  Spec §3: Count, Rate: `value += delta`;
Gauge: `value = newValue`. -/
def Metric.update (m : Metric) (v : ℚ) : Metric :=
  match m.mclass with
  | .count => { m with value := m.value + v }
  | .rate => { m with value := m.value + v }
  | .gauge => { m with value := v }

/-- Modelled from the spec: the value rendered for an accumulator at flush
(the `metric.getMetric` method lives in a repository file not under `src/`).
Spec §3 rendering rule, given elapsed interval `dt`: Count → `value`;
Rate → `value / dt` seconds; Gauge → `value` unchanged. -/
def Metric.renderValue (m : Metric) (dt : ℚ) : ℚ :=
  match m.mclass with
  | .count => m.value
  | .rate => m.value / dt
  | .gauge => m.value

/-- One worker's shard map `map[string]*metric`. -/
def Shard := String → Option Metric

/-- A freshly initialised (or just-flushed) shard: `map[string]*metric{}`. -/
def emptyShard : Shard := fun _ => none

/-- One iteration of `worker`: compute the identity key of the job's metric,
then update the stored accumulator in place if present, else store the job's
metric. -/
def workerStep (s : Shard) (j : Metric) : Shard :=
  let k := metricKey j.name j.tags
  fun k2 =>
    if k2 = k then
      match s k with
      | some old => some (old.update j.value)
      | none => some j
    else s k2

/-- The metrics a worker has accumulated after processing a FIFO job list,
starting from the empty shard of a new flush epoch. -/
def processMetrics (js : List Metric) : Shard :=
  js.foldl workerStep emptyShard

/-- The job built by `Count(name, value, tags)`. -/
def countJob (name : String) (v : ℚ) (tags : List String) : Metric :=
  ⟨name, .count, v, tags⟩

/-- The job built by `Gauge(name, value, tags)`. -/
def gaugeJob (name : String) (v : ℚ) (tags : List String) : Metric :=
  ⟨name, .gauge, v, tags⟩

/-- The flattening loop of `commitFlush`: shard maps are merged into one map
in shard order, later shards overwriting earlier ones at equal keys. -/
def flattenShards (shards : List Shard) : Shard :=
  shards.foldl (fun acc s => fun k => (s k).elim (acc k) some) emptyShard

/-- `appendErrorsList(errors, err, max)`.  The eviction slice `errors[1:]` is
out of bounds when `errors` is empty (the list starts as the literal
`[]error{}`, whose capacity is 0, and eviction always re-appends, so a
reachable empty list has capacity 0); the `none` result models that panic. -/
def appendErrorsList {E : Type} (errors : List E) (err : E) (max : Int) :
    Option (List E) :=
  if (errors.length : Int) ≥ max then
    if 1 ≤ errors.length then some (errors.drop 1 ++ [err]) else none
  else
    some (errors ++ [err])

/-- The error list produced by a run of `send` delivery failures `errs`, each
recorded by `appendErrorsList` with cap `max`, starting from the `[]error{}`
initialised in `start`. -/
def recordErrors {E : Type} (max : Int) (errs : List E) : Option (List E) :=
  errs.foldlM (fun acc e => appendErrorsList acc e max) ([] : List E)

/-- `combineTags(tags1, tags2)`.  `none` models a `nil` slice.  The Go
deduplication iterates a `map[string]bool`, whose order is unspecified;
`List.dedup` is one deterministic realisation, faithful for every
order-independent (set-level) property. -/
def combineTags (tags1 tags2 : Option (List String)) : List String :=
  match tags1, tags2 with
  | none, none => []
  | none, some t2 => t2
  | some t1, none => t1
  | some t1, some t2 => (t1 ++ t2).dedup

/-- `prependNamespace(namespace, name)`. -/
def prependNamespace (ns name : String) : String :=
  if ns = "" ∨ ns.isPrefixOf name then name else ns ++ "." ++ name

/-- The shared ingestion fast-path state: the bounded `jobs` channel (capacity
`metricBuffer`, buffered contents `jobs` in FIFO order) and the `dropped`
counter.  `dropped` is a Go `uint64`: it is modelled as a `ℕ` kept below
`2 ^ 64`, every increment being reduced modulo `2 ^ 64` as
`atomic.AddUint64` wraps. -/
structure StatsQueue where
  metricBuffer : ℕ
  jobs : List Metric
  dropped : ℕ
  deriving DecidableEq, Repr

/-- The non-blocking `select`/`default` enqueue shared by `Count`, `Rate` and
`Gauge`: if the channel has free capacity the job is buffered, otherwise the
job is discarded and `dropped` is atomically incremented — a `uint64`
addition, hence taken modulo `2 ^ 64`. -/
def enqueueMetric (s : StatsQueue) (m : Metric) : StatsQueue :=
  if s.jobs.length < s.metricBuffer then { s with jobs := s.jobs ++ [m] }
  else { s with dropped := (s.dropped + 1) % 2 ^ 64 }

/-- `Count(name, value, tags)`. -/
def Count (s : StatsQueue) (name : String) (value : ℚ) (tags : List String) :
    StatsQueue :=
  enqueueMetric s ⟨name, .count, value, tags⟩

/-- `Rate(name, value, tags)`. -/
def Rate (s : StatsQueue) (name : String) (value : ℚ) (tags : List String) :
    StatsQueue :=
  enqueueMetric s ⟨name, .rate, value, tags⟩

/-- `Gauge(name, value, tags)`. -/
def Gauge (s : StatsQueue) (name : String) (value : ℚ) (tags : List String) :
    StatsQueue :=
  enqueueMetric s ⟨name, .gauge, value, tags⟩

/-- `Increment(name, tags)` = `Count(name, 1, tags)`. -/
def Increment (s : StatsQueue) (name : String) (tags : List String) :
    StatsQueue :=
  Count s name 1 tags

/-- `Decrement(name, tags)` = `Count(name, -1, tags)`. -/
def Decrement (s : StatsQueue) (name : String) (tags : List String) :
    StatsQueue :=
  Count s name (-1) tags

/-- `IncrementRate(name, tags)` = `Rate(name, 1, tags)`. -/
def IncrementRate (s : StatsQueue) (name : String) (tags : List String) :
    StatsQueue :=
  Rate s name 1 tags

/-- `DecrementRate(name, tags)` = `Rate(name, -1, tags)`. -/
def DecrementRate (s : StatsQueue) (name : String) (tags : List String) :
    StatsQueue :=
  Rate s name (-1) tags

/-- The shutdown-relevant state touched by `Close`: the `shutdown` flag read
and written under `shutdownLock`, and a count of shutdown jobs submitted to the
control loop (each submission triggers one final-flush/stop/drain sequence). -/
structure CloseState where
  shutdown : Bool
  shutdownJobsSent : ℕ
  deriving DecidableEq, Repr

/-- `Close()`: under the lock, return immediately when `shutdown` is already
set; otherwise set it and submit the one shutdown job. -/
def Close (s : CloseState) : CloseState :=
  if s.shutdown then s
  else { shutdown := true, shutdownJobsSent := s.shutdownJobsSent + 1 }

/-- The outbound `client.DDMetric` shape (spec §3 outbound series entry): name,
host, tags, plus the payload fields the fix-up loops never touch. -/
structure DDMetric where
  host : String
  metricName : String
  tags : Option (List String)
  value : ℚ
  mclass : MetricClass
  timestamp : Int
  deriving DecidableEq, Repr

/-- The per-element fix-up applied by the loop bodies of `SendSeries` and
`QueueSeries`: fill `Host` if absent, prefix the namespace, merge global and
call-site tags.  The element is mutated through its pointer, so this is the
post-state of the caller's element. -/
def fixSeriesMetric (ns host : String) (globalTags : Option (List String))
    (m : DDMetric) : DDMetric :=
  { m with
    host := if m.host = "" then host else m.host
    metricName := prependNamespace ns m.metricName
    tags := some (combineTags globalTags m.tags) }

/-- The `for _, m := range series` loop of `SendSeries` (and, identically, of
`QueueSeries`): the post-state of the series elements.  The subsequent network
call is external (spec §6). -/
def SendSeries (ns host : String) (globalTags : Option (List String)) :
    List DDMetric → List DDMetric
  | [] => []
  | m :: rest => fixSeriesMetric ns host globalTags m ::
      SendSeries ns host globalTags rest

/-- `QueueSeries`: runs the same fix-up loop over the series, then appends the
(now fixed) elements to `metricsQueue` under `metricQueueLock`.  Returns the
post-state of the caller's series and the new queue. -/
def QueueSeries (ns host : String) (globalTags : Option (List String))
    (queue series : List DDMetric) : List DDMetric × List DDMetric :=
  (SendSeries ns host globalTags series,
    queue ++ SendSeries ns host globalTags series)

/-! ## Helper lemmas -/

theorem sortStrings_perm (l : List String) : List.Perm (sortStrings l) l :=
  List.perm_insertionSort _ l

theorem sortStrings_sorted (l : List String) :
    List.Sorted (· ≤ ·) (sortStrings l) :=
  List.sorted_insertionSort _ l

/-- Sorting is invariant under permutation of the input: any two permuted tag
lists sort to the same list. -/
theorem sortStrings_eq_of_perm {l1 l2 : List String} (h : List.Perm l1 l2) :
    sortStrings l1 = sortStrings l2 :=
  List.eq_of_perm_of_sorted
    (((sortStrings_perm l1).trans h).trans (sortStrings_perm l2).symm)
    (sortStrings_sorted l1) (sortStrings_sorted l2)

theorem metricKey_eq_of_perm (name : String) {t1 t2 : List String}
    (h : List.Perm t1 t2) : metricKey name t1 = metricKey name t2 := by
  unfold metricKey
  rw [sortStrings_eq_of_perm h]

/-- Right cancellation for string concatenation. -/
theorem string_append_cancel {a b c : String} (h : a ++ c = b ++ c) :
    a = b := by
  have hd : a.data ++ c.data = b.data ++ c.data := by
    have := congrArg String.data h
    simpa [String.data_append] using this
  apply String.ext
  exact List.append_cancel_right hd

/-- Processing a run of `Count` jobs with one identity on top of a shard that
already holds a count accumulator adds the run's sum to it. -/
theorem processCounts_aux (name : String) (tags : List String) (vs : List ℚ)
    (s : Shard) (m0 : Metric)
    (h : s (metricKey name tags) = some m0) (hc : m0.mclass = .count) :
    (vs.foldl (fun sh v => workerStep sh (countJob name v tags)) s)
        (metricKey name tags) =
      some { m0 with value := m0.value + vs.sum } := by
  induction vs generalizing s m0 with
  | nil => simpa using h
  | cons v vs ih =>
    simp only [List.foldl_cons]
    have hstep : (workerStep s (countJob name v tags)) (metricKey name tags) =
        some { m0 with value := m0.value + v } := by
      simp [workerStep, countJob, h, Metric.update, hc]
    have hrec := ih _ _ hstep (by simpa using hc)
    rw [hrec]
    simp [add_assoc]

/-- Processing a run of `Gauge` jobs with one identity on top of a shard that
already holds a gauge accumulator leaves the last value of the run (or the old
value, for an empty run). -/
theorem processGauges_aux (name : String) (tags : List String) (vs : List ℚ)
    (s : Shard) (m0 : Metric)
    (h : s (metricKey name tags) = some m0) (hc : m0.mclass = .gauge) :
    (vs.foldl (fun sh v => workerStep sh (gaugeJob name v tags)) s)
        (metricKey name tags) =
      some { m0 with value := vs.getLast?.getD m0.value } := by
  induction vs generalizing s m0 with
  | nil => simpa using h
  | cons v vs ih =>
    simp only [List.foldl_cons]
    have hstep : (workerStep s (gaugeJob name v tags)) (metricKey name tags) =
        some { m0 with value := v } := by
      simp [workerStep, gaugeJob, h, Metric.update, hc]
    have hrec := ih _ _ hstep (by simpa using hc)
    rw [hrec]
    cases vs with
    | nil => simp
    | cons w ws =>
      have hne : (w :: ws).getLast? ≠ none := by
        simp [List.getLast?_eq_getLast]
      obtain ⟨l, hl⟩ := Option.ne_none_iff_exists.mp hne
      simp [List.getLast?_cons_cons, ← hl]

/-! ## Claim theorems -/

/-- C1: for every sequence of count updates sharing one name and one tag set
that are all processed before a flush, the accumulator value rendered at that
flush equals the arithmetic sum of the submitted values; in particular
`count("requests", 5, nil)` then `count("requests", -2, nil)` then flush
renders value `3`. -/
theorem count_flush_renders_sum :
    (∀ (name : String) (tags : List String) (v : ℚ) (vs : List ℚ) (dt : ℚ),
      ∃ m : Metric,
        processMetrics ((v :: vs).map (fun x => countJob name x tags))
            (metricKey name tags) = some m ∧
        m.mclass = .count ∧
        m.value = (v :: vs).sum ∧
        m.renderValue dt = (v :: vs).sum) ∧
    Option.map (fun m : Metric => m.renderValue 1)
        (processMetrics [countJob "requests" 5 [], countJob "requests" (-2) []]
          (metricKey "requests" [])) = some 3 := by
  have hgen : ∀ (name : String) (tags : List String) (v : ℚ) (vs : List ℚ)
      (dt : ℚ),
      ∃ m : Metric,
        processMetrics ((v :: vs).map (fun x => countJob name x tags))
            (metricKey name tags) = some m ∧
        m.mclass = .count ∧
        m.value = (v :: vs).sum ∧
        m.renderValue dt = (v :: vs).sum := by
    intro name tags v vs dt
    have h0 : (workerStep emptyShard (countJob name v tags))
        (metricKey name tags) = some (countJob name v tags) := by
      simp [workerStep, emptyShard, countJob]
    have hrun := processCounts_aux name tags vs _ _ h0 rfl
    refine ⟨{ countJob name v tags with value := v + vs.sum }, ?_, rfl, ?_, ?_⟩
    · simpa [processMetrics, List.foldl_map] using hrun
    · simp [countJob]
    · simp [Metric.renderValue, countJob]
  refine ⟨hgen, ?_⟩
  obtain ⟨m, hm, -, -, hr⟩ := hgen "requests" [] 5 [-2] 1
  have hlist : [countJob "requests" 5 [], countJob "requests" (-2) []] =
      ((5 :: [-2]).map fun x => countJob "requests" x ([] : List String)) := rfl
  rw [hlist, hm]
  simp only [Option.map_some']
  rw [hr]
  norm_num

/-- C2: for every sequence of gauge updates sharing one identity that are all
processed before a flush, the value rendered at that flush equals the value of
the last update processed, independent of all intermediate values; in
particular `gauge("mem", 10, nil)` then `gauge("mem", 42, nil)` then flush
renders value `42`. -/
theorem gauge_flush_renders_last :
    (∀ (name : String) (tags : List String) (v : ℚ) (vs : List ℚ) (dt : ℚ),
      ∃ m : Metric,
        processMetrics ((v :: vs).map (fun x => gaugeJob name x tags))
            (metricKey name tags) = some m ∧
        m.mclass = .gauge ∧
        m.value = vs.getLast?.getD v ∧
        m.renderValue dt = vs.getLast?.getD v) ∧
    Option.map (fun m : Metric => m.renderValue 1)
        (processMetrics [gaugeJob "mem" 10 [], gaugeJob "mem" 42 []]
          (metricKey "mem" [])) = some 42 := by
  have hgen : ∀ (name : String) (tags : List String) (v : ℚ) (vs : List ℚ)
      (dt : ℚ),
      ∃ m : Metric,
        processMetrics ((v :: vs).map (fun x => gaugeJob name x tags))
            (metricKey name tags) = some m ∧
        m.mclass = .gauge ∧
        m.value = vs.getLast?.getD v ∧
        m.renderValue dt = vs.getLast?.getD v := by
    intro name tags v vs dt
    have h0 : (workerStep emptyShard (gaugeJob name v tags))
        (metricKey name tags) = some (gaugeJob name v tags) := by
      simp [workerStep, emptyShard, gaugeJob]
    have hrun := processGauges_aux name tags vs _ _ h0 rfl
    refine ⟨{ gaugeJob name v tags with value := vs.getLast?.getD v }, ?_,
      rfl, ?_, ?_⟩
    · simpa [processMetrics, List.foldl_map, gaugeJob] using hrun
    · simp [gaugeJob]
    · simp [Metric.renderValue, gaugeJob]
  refine ⟨hgen, ?_⟩
  obtain ⟨m, hm, -, -, hr⟩ := hgen "mem" [] 10 [42] 1
  have hlist : [gaugeJob "mem" 10 [], gaugeJob "mem" 42 []] =
      ((10 :: [42]).map fun x => gaugeJob "mem" x ([] : List String)) := rfl
  rw [hlist, hm]
  simp only [Option.map_some']
  rw [hr]
  norm_num

/-- C3: for every metric name and every two tag lists that are permutations of
each other, the two updates map to the same accumulator key — `metricKey` is
invariant under permutation of its tag list, so the updates aggregate into one
entry rather than two. -/
theorem metricKey_tag_order_independent (name : String) (t1 t2 : List String)
    (h : List.Perm t1 t2) : metricKey name t1 = metricKey name t2 :=
  metricKey_eq_of_perm name h

/-- C3 witness: `count("m", 1, ["a","b"])` and `count("m", 1, ["b","a"])` hit
the same key. -/
theorem metricKey_tag_order_independent_witness :
    metricKey "m" ["a", "b"] = metricKey "m" ["b", "a"] :=
  metricKey_tag_order_independent "m" ["a", "b"] ["b", "a"] (by decide)

/-- C4 counterexample: two updates with different metric names can collide on
one accumulator key — `metricKey "a" ["b"]` and `metricKey "ab" []` are both
`"ab"` although the names differ, refuting the claim for arbitrary tag lists. -/
theorem metricKey_distinct_names_counterexample :
    metricKey "a" ["b"] = metricKey "ab" [] ∧ "a" ≠ "ab" := by
  constructor
  · rfl
  · decide

/-- C4 (amended): for every two updates with different metric names whose tag
lists carry the same tag set (permutations of each other — in particular
identical tag lists), `metricKey` never identifies them; and the flush-time
flattening of `commitFlush` resolves each key independently of every other
key, so entries under the two distinct keys never overwrite one another. -/
theorem metricKey_distinct_names_distinct_keys :
    (∀ (n1 n2 : String) (t1 t2 : List String), n1 ≠ n2 → List.Perm t1 t2 →
      metricKey n1 t1 ≠ metricKey n2 t2) ∧
    (∀ (shards : List Shard) (k : String),
      flattenShards shards k =
        shards.foldl (fun acc s => (s k).elim acc some) none) := by
  constructor
  · intro n1 n2 t1 t2 hn hperm heq
    apply hn
    rw [metricKey_eq_of_perm n1 hperm] at heq
    exact string_append_cancel heq
  · intro shards k
    have haux : ∀ (acc : Shard),
        (shards.foldl (fun acc s => fun k2 => (s k2).elim (acc k2) some) acc) k
          = shards.foldl (fun o s => (s k).elim o some) (acc k) := by
      induction shards with
      | nil => intro acc; rfl
      | cons sh rest ih =>
        intro acc
        simp only [List.foldl_cons]
        exact ih _
    simpa [flattenShards, emptyShard] using haux emptyShard

/-- C4 witness: distinct names `"a"` and `"b"` with permuted identical tag
sets `["x","y"]` / `["y","x"]` get distinct keys. -/
theorem metricKey_distinct_names_distinct_keys_witness :
    metricKey "a" ["x", "y"] ≠ metricKey "b" ["y", "x"] :=
  metricKey_distinct_names_distinct_keys.1 "a" "b" ["x", "y"] ["y", "x"]
    (by decide) (by decide)

/-- Folding `appendErrorsList` with cap `M ≥ 1` over a run of errors, starting
from a window of at most `M` already-recorded errors, keeps the most recent
`M` of the combined list and never hits the out-of-bounds eviction. -/
theorem recordErrors_aux {E : Type} (M : ℕ) (hM : 1 ≤ M) (errs : List E) :
    ∀ acc : List E, acc.length ≤ M →
      errs.foldlM (fun a e => appendErrorsList a e (M : Int)) acc =
        some ((acc ++ errs).drop ((acc ++ errs).length - M)) := by
  induction errs with
  | nil =>
    intro acc hacc
    have h0 : acc.length - M = 0 := by omega
    simp [h0]
  | cons e rest ih =>
    intro acc hacc
    rw [List.foldlM_cons]
    by_cases hfull : M ≤ acc.length
    · have hlen : acc.length = M := le_antisymm hacc hfull
      have hne : acc ≠ [] := by
        intro h
        rw [h] at hlen
        simp at hlen
        omega
      obtain ⟨a, acc', rfl⟩ := List.exists_cons_of_ne_nil hne
      have hge : ((a :: acc').length : Int) ≥ ((M : ℕ) : Int) := by
        exact_mod_cast hlen.ge
      have h1 : 1 ≤ (a :: acc').length := by simp
      have hstep : appendErrorsList (a :: acc') e (M : Int) =
          some (acc' ++ [e]) := by
        unfold appendErrorsList
        rw [if_pos hge, if_pos h1]
        rfl
      rw [hstep]
      have hlen' : (acc' ++ [e]).length ≤ M := by
        simp at hlen ⊢
        omega
      have hrec := ih (acc' ++ [e]) hlen'
      simp only [Option.bind_eq_bind, Option.some_bind] at *
      rw [hrec]
      congr 1
      have hY : (a :: (acc' ++ e :: rest)).length - M =
          ((acc' ++ e :: rest).length - M) + 1 := by
        simp at hlen ⊢
        omega
      rw [List.cons_append, hY, List.drop_succ_cons, List.append_assoc,
        List.singleton_append]
    · push_neg at hfull
      have hstep : appendErrorsList acc e (M : Int) = some (acc ++ [e]) := by
        have hlt : ¬ ((acc.length : Int) ≥ (M : Int)) := by
          simp only [ge_iff_le, not_le]
          exact_mod_cast hfull
        simp [appendErrorsList, hlt]
      rw [hstep]
      have hlen' : (acc ++ [e]).length ≤ M := by
        simp
        omega
      have hrec := ih (acc ++ [e]) hlen'
      simp only [Option.bind_eq_bind, Option.some_bind] at *
      rw [hrec]
      congr 1
      rw [List.append_assoc, List.singleton_append]

/-- C5: for every sequence of delivery errors recorded with
`maxErrors = M ≥ 1`, the stored errors list never exceeds `M` entries, and
appending when the list is full evicts the oldest entry first (FIFO), so the
list always holds the most recent `min(k, M)` errors in order — it is exactly
the length-`min(k, M)` suffix of the `k` submitted errors. -/
theorem errors_ring_bounded_fifo {E : Type} (M : ℕ) (hM : 1 ≤ M)
    (errs : List E) :
    recordErrors (M : Int) errs = some (errs.drop (errs.length - M)) ∧
    (errs.drop (errs.length - M)).length = min errs.length M := by
  constructor
  · have h := recordErrors_aux M hM errs [] (by simp)
    simpa [recordErrors] using h
  · rw [List.length_drop]
    omega

/-- C5 witness: with `maxErrors = 1`, two consecutive delivery failures leave
exactly one recorded error, the second one. -/
theorem errors_ring_bounded_fifo_witness :
    recordErrors (1 : Int) [(10 : ℕ), 20] = some [20] := by
  have h := (errors_ring_bounded_fifo 1 (by decide) [(10 : ℕ), 20]).1
  simpa using h

/-- C9: `appendErrorsList` succeeds exactly when `max ≥ 1` or the existing
list is non-empty; with `maxErrors ≤ 0` and an empty error list, recording the
first delivery error takes the slice `errors[1:]` of an empty slice, which is
out of bounds (`none`), as at the concrete input `max = 0`, `errors = []`. -/
theorem appendErrorsList_total_iff :
    (∀ {E : Type} (errors : List E) (err : E) (max : Int),
      (appendErrorsList errors err max).isSome = true ↔
        1 ≤ max ∨ errors ≠ []) ∧
    appendErrorsList ([] : List ℕ) 0 0 = none := by
  constructor
  · intro E errors err max
    unfold appendErrorsList
    split
    · next hge =>
      split
      · next h1 =>
        simp only [Option.isSome_some, true_iff]
        exact Or.inr (List.ne_nil_of_length_pos (by omega))
      · next h1 =>
        have hnil : errors = [] := by
          apply List.eq_nil_of_length_eq_zero
          omega
        simp only [Option.isSome_none, Bool.false_eq_true, false_iff]
        push_neg
        refine ⟨?_, hnil⟩
        subst hnil
        simp at hge
        omega
    · next hge =>
      simp only [Option.isSome_some, true_iff]
      left
      simp only [ge_iff_le, not_le] at hge
      omega
  · rfl

/-- C6 counterexample: when the first tag list is `nil`, `combineTags` returns
the second list verbatim, so a duplicated call-site tag survives — the result
for `(nil, ["a","a"])` is not duplicate-free, refuting the claim for every
pair of tag lists. -/
theorem combineTags_counterexample :
    combineTags none (some ["a", "a"]) = ["a", "a"] ∧
    ¬ (combineTags none (some ["a", "a"])).Nodup := by
  refine ⟨rfl, ?_⟩
  decide

/-- C6 (amended): for every pair of non-`nil` tag lists, `combineTags` returns
the duplicate-free union of the two lists (every tag of either input appears,
none more than once); when exactly one input is `nil` the other list is
returned unchanged — duplicate-free only if that list already was — and when
both are `nil` the result is empty. -/
theorem combineTags_dedup_union :
    (∀ t1 t2 : List String,
      (combineTags (some t1) (some t2)).Nodup ∧
      ∀ x, x ∈ combineTags (some t1) (some t2) ↔ x ∈ t1 ∨ x ∈ t2) ∧
    (∀ t2, combineTags none (some t2) = t2) ∧
    (∀ t1, combineTags (some t1) none = t1) ∧
    combineTags none none = [] := by
  refine ⟨?_, fun t2 => rfl, fun t1 => rfl, rfl⟩
  intro t1 t2
  constructor
  · exact List.nodup_dedup _
  · intro x
    simp [combineTags]

/-- C7 counterexample: the dropped-metric counter is a wrapping `uint64` —
at the representable state `dropped = 2^64 - 1`, one more discarded update
wraps the counter to `0`, a decrease, refuting the claim's unconditional
"increases by exactly 1 and never decreases". -/
theorem ingestion_dropped_wraps_counterexample :
    (Count { metricBuffer := 0, jobs := [], dropped := 2 ^ 64 - 1 } "m" 1
        []).dropped = 0 ∧
    (Count { metricBuffer := 0, jobs := [], dropped := 2 ^ 64 - 1 } "m" 1
        []).dropped < 2 ^ 64 - 1 := by
  have hc : (Count { metricBuffer := 0, jobs := [], dropped := 2 ^ 64 - 1 }
      "m" 1 []).dropped = (2 ^ 64 - 1 + 1) % 2 ^ 64 := by
    simp [Count, enqueueMetric]
  rw [hc]
  norm_num

/-- C7 (amended): every ingestion call (count, rate, gauge and their increment
and decrement variants) issued while the top-level job queue is full returns
without blocking and without an error, discards the update (the job list is
unchanged, so no accumulator is ever created or updated for it) and increments
the process-wide dropped-metric counter modulo `2^64`; when the queue has free
space the counter is unchanged and the job is enqueued.  As long as fewer than
`2^64` drops have occurred (counter below `2^64 - 1`), a saturated-queue call
increases the counter by exactly 1 and no call ever decreases it; at
`2^64 - 1` a further drop wraps the `uint64` counter to 0. -/
theorem ingestion_drops_when_full (s : StatsQueue) (name : String) (v : ℚ)
    (tags : List String) :
    (s.metricBuffer ≤ s.jobs.length →
      Count s name v tags = { s with dropped := (s.dropped + 1) % 2 ^ 64 } ∧
      Rate s name v tags = { s with dropped := (s.dropped + 1) % 2 ^ 64 } ∧
      Gauge s name v tags = { s with dropped := (s.dropped + 1) % 2 ^ 64 } ∧
      Increment s name tags =
        { s with dropped := (s.dropped + 1) % 2 ^ 64 } ∧
      Decrement s name tags =
        { s with dropped := (s.dropped + 1) % 2 ^ 64 } ∧
      IncrementRate s name tags =
        { s with dropped := (s.dropped + 1) % 2 ^ 64 } ∧
      DecrementRate s name tags =
        { s with dropped := (s.dropped + 1) % 2 ^ 64 }) ∧
    (s.jobs.length < s.metricBuffer →
      (Count s name v tags).dropped = s.dropped ∧
      (Count s name v tags).jobs = s.jobs ++ [⟨name, .count, v, tags⟩] ∧
      (Rate s name v tags).dropped = s.dropped ∧
      (Rate s name v tags).jobs = s.jobs ++ [⟨name, .rate, v, tags⟩] ∧
      (Gauge s name v tags).dropped = s.dropped ∧
      (Gauge s name v tags).jobs = s.jobs ++ [⟨name, .gauge, v, tags⟩]) ∧
    (s.metricBuffer ≤ s.jobs.length → s.dropped + 1 < 2 ^ 64 →
      (Count s name v tags).dropped = s.dropped + 1 ∧
      (Rate s name v tags).dropped = s.dropped + 1 ∧
      (Gauge s name v tags).dropped = s.dropped + 1 ∧
      (Increment s name tags).dropped = s.dropped + 1 ∧
      (Decrement s name tags).dropped = s.dropped + 1 ∧
      (IncrementRate s name tags).dropped = s.dropped + 1 ∧
      (DecrementRate s name tags).dropped = s.dropped + 1) ∧
    (s.dropped + 1 < 2 ^ 64 →
      s.dropped ≤ (Count s name v tags).dropped ∧
      s.dropped ≤ (Rate s name v tags).dropped ∧
      s.dropped ≤ (Gauge s name v tags).dropped ∧
      s.dropped ≤ (Increment s name tags).dropped ∧
      s.dropped ≤ (Decrement s name tags).dropped ∧
      s.dropped ≤ (IncrementRate s name tags).dropped ∧
      s.dropped ≤ (DecrementRate s name tags).dropped) := by
  have hfull : s.metricBuffer ≤ s.jobs.length →
      ∀ m : Metric, enqueueMetric s m =
        { s with dropped := (s.dropped + 1) % 2 ^ 64 } := by
    intro h m
    simp [enqueueMetric, not_lt.mpr h]
  have hfree : s.jobs.length < s.metricBuffer →
      ∀ m : Metric, enqueueMetric s m = { s with jobs := s.jobs ++ [m] } := by
    intro h m
    simp [enqueueMetric, h]
  have hexact : s.metricBuffer ≤ s.jobs.length → s.dropped + 1 < 2 ^ 64 →
      ∀ m : Metric, (enqueueMetric s m).dropped = s.dropped + 1 := by
    intro h hw m
    rw [hfull h]
    exact Nat.mod_eq_of_lt hw
  have hmono : s.dropped + 1 < 2 ^ 64 →
      ∀ m : Metric, s.dropped ≤ (enqueueMetric s m).dropped := by
    intro hw m
    by_cases h : s.jobs.length < s.metricBuffer
    · rw [hfree h]
    · rw [hexact (not_lt.mp h) hw]
      exact Nat.le_succ _
  refine ⟨?_, ?_, ?_, ?_⟩
  · intro h
    exact ⟨hfull h _, hfull h _, hfull h _, hfull h _, hfull h _, hfull h _,
      hfull h _⟩
  · intro h
    refine ⟨?_, ?_, ?_, ?_, ?_, ?_⟩ <;>
      simp [Count, Rate, Gauge, enqueueMetric, h]
  · intro h hw
    exact ⟨hexact h hw _, hexact h hw _, hexact h hw _, hexact h hw _,
      hexact h hw _, hexact h hw _, hexact h hw _⟩
  · intro hw
    exact ⟨hmono hw _, hmono hw _, hmono hw _, hmono hw _, hmono hw _,
      hmono hw _, hmono hw _⟩

/-- C7 witness: with a saturated queue (capacity 0) and a counter of 5 — far
below the wrap point — a `Count` call bumps the dropped counter to exactly 6
and does not decrease it. -/
theorem ingestion_drops_when_full_witness :
    (Count { metricBuffer := 0, jobs := [], dropped := 5 } "m" 1 []).dropped
      = 6 ∧
    5 ≤ (Count { metricBuffer := 0, jobs := [], dropped := 5 } "m" 1
      []).dropped := by
  have h := ingestion_drops_when_full
    { metricBuffer := 0, jobs := [], dropped := 5 } "m" 1 []
  refine ⟨(h.2.2.1 (by decide) (by norm_num)).1, (h.2.2.2 (by norm_num)).1⟩

/-- C8: `Close` is idempotent — the second of two calls observes the shutdown
flag and is a no-op leaving the state unchanged, a call on an
already-shut-down instance changes nothing, and a first call performs the
shutdown sequence (submits its one shutdown job) exactly once. -/
theorem close_idempotent (s : CloseState) :
    Close (Close s) = Close s ∧
    (s.shutdown = true → Close s = s) ∧
    (s.shutdown = false →
      (Close s).shutdown = true ∧
      (Close s).shutdownJobsSent = s.shutdownJobsSent + 1) := by
  refine ⟨?_, ?_, ?_⟩
  · by_cases h : s.shutdown
    · simp [Close, h]
    · simp [Close, h]
  · intro h
    simp [Close, h]
  · intro h
    simp [Close, h]

/-- C8 witness: from a running instance, the first `Close` shuts down and the
second is a no-op — two calls send exactly one shutdown job. -/
theorem close_idempotent_witness :
    Close (Close { shutdown := false, shutdownJobsSent := 0 }) =
      Close { shutdown := false, shutdownJobsSent := 0 } ∧
    (Close { shutdown := false, shutdownJobsSent := 0 }).shutdownJobsSent
      = 1 :=
  ⟨(close_idempotent { shutdown := false, shutdownJobsSent := 0 }).1,
    ((close_idempotent { shutdown := false, shutdownJobsSent := 0 }).2.2
      rfl).2⟩

/-- The `SendSeries` / `QueueSeries` loop is a map of the per-element fix-up
over the series. -/
theorem sendSeries_eq_map (ns host : String) (g : Option (List String))
    (series : List DDMetric) :
    SendSeries ns host g series = series.map (fixSeriesMetric ns host g) := by
  induction series with
  | nil => rfl
  | cons m rest ih => simp [SendSeries, ih]

/-- C10: `SendSeries` and `QueueSeries` rewrite the caller's series elements
in place: after the call, the element at every position has its `Host` field
set to the global host if it was previously empty (unchanged otherwise), its
`Metric` field replaced by the namespace-prefixed name, and its `Tags` field
replaced by the merge of the global tags with its previous tags, all other
fields untouched; `QueueSeries` additionally appends exactly these updated
elements to the metrics queue. -/
theorem sendSeries_updates_elements (ns host : String)
    (g : Option (List String)) (queue series : List DDMetric) :
    (SendSeries ns host g series).length = series.length ∧
    (∀ (i : ℕ) (old : DDMetric), series[i]? = some old →
      ∃ new : DDMetric,
        (SendSeries ns host g series)[i]? = some new ∧
        new.host = (if old.host = "" then host else old.host) ∧
        new.metricName = prependNamespace ns old.metricName ∧
        new.tags = some (combineTags g old.tags) ∧
        new.value = old.value ∧
        new.mclass = old.mclass ∧
        new.timestamp = old.timestamp) ∧
    (QueueSeries ns host g queue series).1 = SendSeries ns host g series ∧
    (QueueSeries ns host g queue series).2 =
      queue ++ SendSeries ns host g series := by
  refine ⟨?_, ?_, rfl, rfl⟩
  · rw [sendSeries_eq_map]
    exact List.length_map _ _
  · intro i old hold
    refine ⟨fixSeriesMetric ns host g old, ?_, rfl, rfl, rfl, rfl, rfl, rfl⟩
    rw [sendSeries_eq_map, List.getElem?_map, hold, Option.map_some']

/-- C10 witness: a one-element series with an empty host, no tags and metric
name `"m"` comes back with the global host, the prefixed name `"ns.m"` and the
global tags, value and class untouched. -/
theorem sendSeries_updates_elements_witness :
    ∃ new : DDMetric,
      (SendSeries "ns" "h" (some ["g"])
        [{ host := "", metricName := "m", tags := none, value := 1,
           mclass := .gauge, timestamp := 0 }])[0]? = some new ∧
      new.host = (if ("" : String) = "" then "h" else "") ∧
      new.metricName = prependNamespace "ns" "m" ∧
      new.tags = some (combineTags (some ["g"]) none) ∧
      new.value = 1 ∧
      new.mclass = .gauge ∧
      new.timestamp = 0 :=
  (sendSeries_updates_elements "ns" "h" (some ["g"]) []
    [{ host := "", metricName := "m", tags := none, value := 1,
       mclass := .gauge, timestamp := 0 }]).2.1 0 _ rfl

end DDStats
